import Mathlib

/-!
Shallow embedding of the data-normalization core of `src/app.py`
(dashboard-gestao): column-label normalization, junk-column filtering,
locale-aware numeric coercion, header detection, per-family table
standardization, cash-flow reshaping and the dataset assembler, together
with theorems settling the frozen claims about them.

Python strings are modelled as lists of Unicode code points (`PyStr`);
tables are ordered lists of labelled columns over a cell type that is
either raw text or a coerced number.
-/

/-- A Python string, as its list of Unicode code points. -/
abbrev PyStr := List Nat

/-- Code points of a Lean string literal, for concrete inputs. -/
def codes (s : String) : PyStr := s.toList.map Char.toNat

/-- Whitespace as stripped by `str.strip()` (ASCII whitespace suffices for
the inputs this pipeline manipulates). -/
def wsChar (c : Nat) : Bool :=
  c = 32 || c = 9 || c = 10 || c = 11 || c = 12 || c = 13

/-- Model of `str.strip()`: drop leading and trailing whitespace. -/
def pyStrip (s : PyStr) : PyStr :=
  ((s.dropWhile wsChar).reverse.dropWhile wsChar).reverse

/-- Lower-casing of one code point (`str.lower()`), covering ASCII and the
Latin-1 letters that occur in the column labels this program reads. -/
def lowerChar (c : Nat) : Nat :=
  if 65 ≤ c ∧ c ≤ 90 then c + 32
  else if 192 ≤ c ∧ c ≤ 222 ∧ c ≠ 215 then c + 32
  else c

/-- Upper-casing of one code point (`str.upper()`), same coverage. -/
def upperChar (c : Nat) : Nat :=
  if 97 ≤ c ∧ c ≤ 122 then c - 32
  else if 224 ≤ c ∧ c ≤ 254 ∧ c ≠ 247 then c - 32
  else c

/-- Model of `str.lower()` on a whole string. -/
def pyLower (s : PyStr) : PyStr := s.map lowerChar

/-- Model of `str.upper()` on a whole string. -/
def pyUpper (s : PyStr) : PyStr := s.map upperChar

/-- NFKD decomposition of one code point (`unicodedata.normalize("NFKD", ·)`),
spelled out for the accented Latin letters appearing in the source files'
labels; NFKD fixes ASCII, and unlisted points are left alone. -/
def nfkdChar (c : Nat) : List Nat :=
  if c < 128 then [c]
  else if c = 192 then [65, 768]   -- À
  else if c = 193 then [65, 769]   -- Á
  else if c = 194 then [65, 770]   -- Â
  else if c = 195 then [65, 771]   -- Ã
  else if c = 196 then [65, 776]   -- Ä
  else if c = 199 then [67, 807]   -- Ç
  else if c = 201 then [69, 769]   -- É
  else if c = 202 then [69, 770]   -- Ê
  else if c = 205 then [73, 769]   -- Í
  else if c = 211 then [79, 769]   -- Ó
  else if c = 212 then [79, 770]   -- Ô
  else if c = 213 then [79, 771]   -- Õ
  else if c = 218 then [85, 769]   -- Ú
  else if c = 220 then [85, 776]   -- Ü
  else if c = 224 then [97, 768]   -- à
  else if c = 225 then [97, 769]   -- á
  else if c = 226 then [97, 770]   -- â
  else if c = 227 then [97, 771]   -- ã
  else if c = 228 then [97, 776]   -- ä
  else if c = 231 then [99, 807]   -- ç
  else if c = 233 then [101, 769]  -- é
  else if c = 234 then [101, 770]  -- ê
  else if c = 237 then [105, 769]  -- í
  else if c = 243 then [111, 769]  -- ó
  else if c = 244 then [111, 770]  -- ô
  else if c = 245 then [111, 771]  -- õ
  else if c = 250 then [117, 769]  -- ú
  else if c = 252 then [117, 776]  -- ü
  else [c]

/-- Combining-mark test (`unicodedata.combining(ch)` nonzero), for the
combining diacritical marks block produced by the decompositions above. -/
def isCombining (c : Nat) : Bool := 768 ≤ c ∧ c ≤ 879

/-- Lower-case ASCII letter or digit: exactly what the final
`re.sub(r"[^a-z0-9]+", "", ·)` of `normalize_col` keeps. -/
def isLowerAlnum (c : Nat) : Bool := (97 ≤ c ∧ c ≤ 122) || (48 ≤ c ∧ c ≤ 57)

/-- Model of `normalize_col` (src/app.py:51-57): strip, NFKD-decompose, drop
combining marks, lower-case, keep only lower-case ASCII alphanumerics. -/
def normalize_col (s : PyStr) : PyStr :=
  ((((pyStrip s).flatMap nfkdChar).filter
      (fun c => !isCombining c)).map lowerChar).filter isLowerAlnum

/-- ASCII alphanumeric, the `re.search(r"[A-Za-z0-9]", ·)` test of
`drop_junk_columns`. -/
def isAsciiAlnum (c : Nat) : Bool :=
  (65 ≤ c ∧ c ≤ 90) || (97 ≤ c ∧ c ≤ 122) || (48 ≤ c ∧ c ≤ 57)

/-- The per-label junk test of `drop_junk_columns` (src/app.py:79-91):
blank after trimming, case-insensitive "unnamed" prefix, or no ASCII
alphanumeric character at all. -/
def isJunk (label : PyStr) : Bool :=
  let name := pyStrip label
  name = [] || (codes "unnamed").isPrefixOf (pyLower name) ||
    !(name.any isAsciiAlnum)

/-- Model of `CAPEX_COL_MAP` (src/app.py:19-33): canonical-key to canonical-field
map for the capital-expenditure family. -/
def CAPEX_COL_MAP : List (PyStr × PyStr) :=
  [(codes "ufv", codes "ufv"),
   (codes "natureza", codes "natureza"),
   (codes "fornecedor", codes "fornecedor"),
   (codes "contratooriginal", codes "contrato_original"),
   (codes "valortotal", codes "valor_total"),
   (codes "fdmedido", codes "fd_medido"),
   (codes "medicao", codes "medicao"),
   (codes "fdmedicao", codes "fd_medicao"),
   (codes "saldoamedir", codes "saldo_a_medir"),
   (codes "avancocontratual", codes "avanco_contratual"),
   (codes "avancoobra", codes "avanco_obra"),
   (codes "portfolio", codes "portfolio"),
   (codes "portifolio", codes "portfolio")]

/-- Model of `FIN_COL_MAP` (src/app.py:35-44): canonical-key to canonical-field
map for the disbursement family. -/
def FIN_COL_MAP : List (PyStr × PyStr) :=
  [(codes "usinafilial", codes "ufv_pag"),
   (codes "usina", codes "ufv_pag"),
   (codes "filial", codes "ufv_pag"),
   (codes "valordanf", codes "valor_nf"),
   (codes "fornecedor", codes "fornecedor_pag"),
   (codes "statusdolancamento", codes "status_pag"),
   (codes "dataemissaonf", codes "data_emissao_nf"),
   (codes "nodanf", codes "numero_nf")]

/-- Dictionary lookup (`key in MAP` / `MAP[key]`). -/
def lookupMap (m : List (PyStr × PyStr)) (k : PyStr) : Option PyStr :=
  (m.find? (fun p => p.1 == k)).map (·.2)

/-- Euclid's algorithm with explicit fuel, so that the kernel can
evaluate it; the fuel `a + 1` always suffices since the first argument
strictly decreases. -/
def fgcdAux : Nat → Nat → Nat → Nat
  | 0, _, b => b
  | fuel+1, a, b => if a = 0 then b else fgcdAux fuel (b % a) a

/-- Greatest common divisor (kernel-reducible). -/
def fgcd (a b : Nat) : Nat := fgcdAux (a + 1) a b

/-- An exact rational, kept in lowest terms by `mkFrac`; stands for the
real value carried by a float64 cell.  Every `Frac` the pipeline builds
goes through `mkFrac`, so structural equality is value equality. -/
structure Frac where
  n : Int
  d : Nat
deriving DecidableEq

/-- Normalizing constructor for `Frac`. -/
def mkFrac (n : Int) (d : Nat) : Frac :=
  if d = 0 then ⟨0, 1⟩
  else
    let g := fgcd n.natAbs d
    ⟨n / (g : Int), d / g⟩

instance (n : Nat) : OfNat Frac n := ⟨⟨n, 1⟩⟩

/-- Addition. -/
def Frac.addF (a b : Frac) : Frac := mkFrac (a.n * b.d + b.n * a.d) (a.d * b.d)

/-- Multiplication. -/
def Frac.mulF (a b : Frac) : Frac := mkFrac (a.n * b.n) (a.d * b.d)

/-- Division (never called with a zero divisor by the parser). -/
def Frac.divF (a b : Frac) : Frac :=
  mkFrac (if b.n < 0 then -(a.n * b.d) else a.n * b.d) (a.d * b.n.natAbs)

/-- Negation (keeps lowest terms). -/
def Frac.negF (a : Frac) : Frac := ⟨-a.n, a.d⟩

/-- A natural number as a `Frac`. -/
def natFrac (k : Nat) : Frac := ⟨k, 1⟩

/-- Ten to a natural power. -/
def powTen (k : Nat) : Frac := ⟨(10 : Int) ^ k, 1⟩

/-- A pandas float64 value as this pipeline can observe it: a finite
rational, an infinity, or NaN.  (Binary-rounding artefacts are not
observable through any of the verified properties.) -/
inductive PNum where
  | fin (q : Frac)
  | inf
  | neginf
  | nan
deriving DecidableEq

/-- IEEE addition on `PNum` (`+` of two float64 Series). -/
def PNum.add : PNum → PNum → PNum
  | .nan, _ => .nan
  | _, .nan => .nan
  | .inf, .neginf => .nan
  | .neginf, .inf => .nan
  | .inf, _ => .inf
  | _, .inf => .inf
  | .neginf, _ => .neginf
  | _, .neginf => .neginf
  | .fin a, .fin b => .fin (a.addF b)

/-- ASCII digit. -/
def isDigit (c : Nat) : Bool := 48 ≤ c ∧ c ≤ 57

/-- Value of a digit string. -/
def digitsVal (ds : PyStr) : Nat := ds.foldl (fun a c => a * 10 + (c - 48)) 0

/-- Mantissa of pandas' float parser (`precise_xstrtod`): digits with an
optional decimal point, at least one digit overall; returns the value and
the unconsumed remainder. -/
def parseMantissa (s : PyStr) : Option (Frac × PyStr) :=
  let ip := s.takeWhile isDigit
  let rest := s.dropWhile isDigit
  match rest with
  | 46 :: rest2 =>
      let fp := rest2.takeWhile isDigit
      let rest3 := rest2.dropWhile isDigit
      if ip = [] ∧ fp = [] then none
      else some ((natFrac (digitsVal ip)).addF
                   ((natFrac (digitsVal fp)).divF (powTen fp.length)), rest3)
  | _ => if ip = [] then none else some (natFrac (digitsVal ip), rest)

/-- Optional exponent part `e`/`E`, optional sign, one or more digits; a
bare `e` with no digits is a parse error, and absence consumes nothing. -/
def parseExponent (s : PyStr) : Option (Int × PyStr) :=
  match s with
  | [] => some (0, [])
  | c :: rest =>
    if c = 101 ∨ c = 69 then
      let sgn : Bool × PyStr :=
        match rest with
        | 45 :: t => (true, t)
        | 43 :: t => (false, t)
        | _ => (false, rest)
      let ds := sgn.2.takeWhile isDigit
      let rest3 := sgn.2.dropWhile isDigit
      if ds = [] then none
      else some ((if sgn.1 then -(digitsVal ds : Int) else (digitsVal ds : Int)), rest3)
    else some (0, c :: rest)

/-- Scale by a signed power of ten. -/
def applyExp (q : Frac) (e : Int) : Frac :=
  if 0 ≤ e then q.mulF (powTen e.toNat) else q.divF (powTen (-e).toNat)

/-- pandas `to_numeric` string parsing (`maybe_convert_numeric` over
`precise_xstrtod`): optional surrounding whitespace, optional sign, then
either a case-insensitive `inf`/`infinity` or a decimal mantissa with an
optional exponent, consuming the entire string; `none` is a parse
failure (which `errors="coerce"` turns into NaN).  The optional leading
sign is split off first. -/
def splitSign (s : PyStr) : Bool × PyStr :=
  match s with
  | c :: r => if c = 45 then (true, r) else if c = 43 then (false, r) else (false, c :: r)
  | [] => (false, [])

/-- Case-insensitive `inf`/`infinity`. -/
def isInfWord (s : PyStr) : Bool :=
  pyLower s == codes "inf" || pyLower s == codes "infinity"

def pandasParse (s0 : PyStr) : Option PNum :=
  let p := splitSign (pyStrip s0)
  if isInfWord p.2 then some (if p.1 then PNum.neginf else PNum.inf)
  else
    match parseMantissa p.2 with
    | none => none
    | some (q, rest) =>
      match parseExponent rest with
      | none => none
      | some (e, rest2) =>
        if rest2 = [] then some (.fin (applyExp (if p.1 then q.negF else q) e))
        else none

/-- Decimal digit string of a natural number (fuel-based). -/
def natToStrAux : Nat → Nat → PyStr
  | 0, _ => []
  | fuel+1, k => if k < 10 then [48 + k] else natToStrAux fuel (k / 10) ++ [48 + k % 10]

/-- Decimal rendering of a natural number. -/
def natToStr (k : Nat) : PyStr := natToStrAux (k + 1) k

/-- Fractional digits of `r / d`, up to 17 places. -/
def fracDigitsAux : Nat → Nat → Nat → PyStr
  | 0, _, _ => []
  | _+1, 0, _ => []
  | fuel+1, r, d => (48 + r * 10 / d) :: fracDigitsAux fuel (r * 10 % d) d

/-- Decimal text of a `Frac`, in the `str(float)` style `123.45`.  Only
reachable when `astype(str)` meets an already-numeric cell; no verified
property depends on the exact digits produced here. -/
def fracToStr (q : Frac) : PyStr :=
  let a := q.n.natAbs
  let f := fracDigitsAux 17 (a % q.d) q.d
  (if q.n < 0 then [45] else []) ++ natToStr (a / q.d) ++ [46] ++
    (if f = [] then [48] else f)

/-- One table cell: raw text from the CSV, or a coerced number. -/
inductive Cell where
  | str (s : PyStr)
  | num (v : PNum)
deriving DecidableEq

/-- Model of `astype(str)` on one cell. -/
def cellToStr : Cell → PyStr
  | .str s => s
  | .num (.fin q) => fracToStr q
  | .num .inf => codes "inf"
  | .num .neginf => codes "-inf"
  | .num .nan => codes "nan"

/-- Membership of a code point in a string (`"," in s`). -/
def containsC (s : PyStr) (c : Nat) : Bool := s.any (· = c)

/-- Model of `str.replace(c, "")`: delete every occurrence. -/
def removeC (s : PyStr) (c : Nat) : PyStr := s.filter (· ≠ c)

/-- Model of `str.replace(a, b)` for single code points. -/
def replaceC (s : PyStr) (a b : Nat) : PyStr :=
  s.map (fun c => if c = a then b else c)

/-- Model of `to_number` on one value (src/app.py:94-99): strip; if a comma is
present, delete all dots (thousands separators); turn the comma into a
dot (the locale cleanup applied before parsing). -/
def cleanNum (s0 : PyStr) : PyStr :=
  let s1 := pyStrip s0
  let s2 := if containsC s1 44 then removeC s1 46 else s1
  replaceC s2 44 46

/-- Parse after locale cleanup, with `fillna(0)`: parse failures and NaN
become 0, everything else is kept. -/
def toNumberStr (s0 : PyStr) : PNum :=
  match pandasParse (cleanNum s0) with
  | some (.fin q) => .fin q
  | some .inf => .inf
  | some .neginf => .neginf
  | some .nan => .fin 0
  | none => .fin 0

/-- Model of `to_number` on a cell, through `astype(str)`. -/
def toNumberCell (c : Cell) : PNum := toNumberStr (cellToStr c)

/-- Model of `to_number` on a whole column. -/
def to_number (col : List Cell) : List Cell :=
  col.map (fun c => .num (toNumberCell c))

/-- The input texts on which `to_number` is not finite: after the locale
cleanup, the string minus an optional leading sign spells `inf` or
`infinity`, case-insensitively — exactly the branch on which pandas
parses an infinity. -/
def spellsInf (s : PyStr) : Bool :=
  isInfWord (splitSign (pyStrip (cleanNum s))).2

/-- A pandas DataFrame as this pipeline sees it: a row count and an
ordered list of labelled columns (labels may repeat, as in pandas). -/
structure Table where
  nrows : Nat
  cols : List (PyStr × List Cell)
deriving DecidableEq

/-- Rectangularity: every column has exactly `nrows` cells. -/
def Table.WFT (t : Table) : Prop := ∀ c ∈ t.cols, c.2.length = t.nrows

/-- Model of `pd.DataFrame()`. -/
def emptyTable : Table := ⟨0, []⟩

/-- Model of `df.empty`: some axis has length zero. -/
def Table.isEmptyT (t : Table) : Bool := t.nrows = 0 || t.cols.isEmpty

/-- Model of `label in df.columns`. -/
def hasCol (t : Table) (l : PyStr) : Bool := t.cols.any (·.1 == l)

/-- Number of columns carrying a given label. -/
def countLabel (t : Table) (l : PyStr) : Nat := (t.cols.filter (·.1 == l)).length

/-- Model of `drop_junk_columns` (src/app.py:79-91): junkness depends only on the
label, so `df.drop(columns=...)` is a filter over the columns. -/
def drop_junk_columns (t : Table) : Table :=
  ⟨t.nrows, t.cols.filter (fun c => !isJunk c.1)⟩

/-- The label a column ends up with after the rename step: the canonical
field if the normalized key is in the family's map, otherwise unchanged. -/
def renameCol (m : List (PyStr × PyStr)) (l : PyStr) : PyStr :=
  match lookupMap m (normalize_col l) with
  | some f => f
  | none => l

/-- The rename step of both standardizers: `df.rename(columns=...)`
relabels every column and never drops or merges columns. -/
def renameWith (m : List (PyStr × PyStr)) (t : Table) : Table :=
  ⟨t.nrows, t.cols.map (fun c => (renameCol m c.1, c.2))⟩

/-- Model of `if l in df.columns: df[l] = f(df[l])` for a column transformation
`f`: absent labels are skipped, a unique match is transformed in place,
and duplicate labels make `df[l].astype(str).str` raise (the selection
is a DataFrame), which the loader catches.  `updByLabel` is the
label-driven in-place update shared by all such assignments. -/
def updByLabel {β : Type} (P : PyStr → Bool) (g : β → β) (c : PyStr × β) :
    PyStr × β :=
  if P c.1 then (c.1, g c.2) else c

def updateCol (t : Table) (l : PyStr) (f : List Cell → List Cell)
    (msg : String) : Except String Table :=
  match countLabel t l with
  | 0 => .ok t
  | 1 => .ok ⟨t.nrows, t.cols.map (updByLabel (· == l) f)⟩
  | _ => .error msg

/-- Model of `if col in df.columns: df[col] = to_number(df[col])` (src/app.py:121-122
and 141-142). -/
def coerceCol (t : Table) (l : PyStr) : Except String Table :=
  updateCol t l to_number "duplicated column selected for numeric coercion"

/-- The coercion loop of `standardize_capex`. -/
def coerceCols : List PyStr → Table → Except String Table
  | [], t => .ok t
  | l :: ls, t =>
    match coerceCol t l with
    | .error e => .error e
    | .ok t2 => coerceCols ls t2

/-- The canonical numeric fields coerced by `standardize_capex`
(src/app.py:111-122). -/
def NUMERIC_CAPEX : List PyStr :=
  [codes "contrato_original", codes "valor_total", codes "fd_medido",
   codes "medicao", codes "fd_medicao", codes "saldo_a_medir",
   codes "avanco_contratual", codes "avanco_obra"]

/-- The numeric value of a cell in an arithmetic position; the `str`
branch is unreachable once the column has been coerced. -/
def cellNum : Cell → PNum
  | .num v => v
  | .str _ => .nan

/-- Model of `df.get(label, 0)` in a numeric position: the column's values when
the label is present, else the broadcast scalar 0. -/
def dfGetNums (t : Table) (l : PyStr) : List PNum :=
  match t.cols.find? (·.1 == l) with
  | some c => c.2.map cellNum
  | none => List.replicate t.nrows (.fin 0)

/-- The derived measured-to-date column (src/app.py:124-125): when
`fd_medicao` is absent, append it as the elementwise sum of the
`fd_medido` and `medicao` columns, each defaulting to 0 when missing. -/
def deriveFdMedicao (t : Table) : Table :=
  if hasCol t (codes "fd_medicao") then t
  else ⟨t.nrows, t.cols ++
    [(codes "fd_medicao",
      (List.zipWith PNum.add (dfGetNums t (codes "fd_medido"))
        (dfGetNums t (codes "medicao"))).map Cell.num)]⟩

/-- Model of `astype(str).str.strip().str.upper()` on one cell. -/
def upperStripCell (x : Cell) : Cell := Cell.str (pyUpper (pyStrip (cellToStr x)))

/-- Model of `if l in df.columns: df[l] = df[l].astype(str).str.strip().str.upper()`
(src/app.py:127-128 and 143-144). -/
def upperStripCol (t : Table) (l : PyStr) : Except String Table :=
  updateCol t l (fun col => col.map upperStripCell)
    "duplicated column selected for identifier normalization"

/-- Model of `standardize_capex` (src/app.py:102-130): junk filter, rename,
numeric coercion, derived `fd_medicao`, `ufv` normalization. -/
def standardize_capex (t : Table) : Except String Table :=
  match coerceCols NUMERIC_CAPEX (renameWith CAPEX_COL_MAP (drop_junk_columns t)) with
  | .error e => .error e
  | .ok t2 => upperStripCol (deriveFdMedicao t2) (codes "ufv")

/-- Model of `standardize_fin` (src/app.py:133-146): rename, `valor_nf` coercion,
`ufv_pag` normalization — with no junk-column filtering. -/
def standardize_fin (t : Table) : Except String Table :=
  match coerceCol (renameWith FIN_COL_MAP t) (codes "valor_nf") with
  | .error e => .error e
  | .ok t2 => upperStripCol t2 (codes "ufv_pag")

/-- Month-column test of `normalize_fluxo` (src/app.py:153): trimmed,
lower-cased label starting with "mes" or "mês". -/
def isMonthLabel (l : PyStr) : Bool :=
  (codes "mes").isPrefixOf (pyLower (pyStrip l)) ||
    (codes "mês").isPrefixOf (pyLower (pyStrip l))

/-- The month (melted) columns. -/
def monthCols (t : Table) : List (PyStr × List Cell) :=
  t.cols.filter (fun c => isMonthLabel c.1)

/-- The identifying (non-melted) columns. -/
def baseCols (t : Table) : List (PyStr × List Cell) :=
  t.cols.filter (fun c => !isMonthLabel c.1)

/-- Model of `normalize_fluxo` (src/app.py:149-160): empty input is returned as
is; with no month columns the result is an empty frame; otherwise
`df.melt` stacks one block of rows per month column (identifying values,
the month column's label under "mes", its cells under "valor") and the
"valor" column is numerically coerced. -/
def normalize_fluxo (t : Table) : Table :=
  if t.isEmptyT then t
  else
    let mcs := monthCols t
    if mcs.isEmpty then emptyTable
    else
      ⟨t.nrows * mcs.length,
        (baseCols t).map (fun b => (b.1, (mcs.map (fun _ => b.2)).flatten)) ++
          [(codes "mes", (mcs.map (fun mc => List.replicate t.nrows (Cell.str mc.1))).flatten),
           (codes "valor", (mcs.map (fun mc => to_number mc.2)).flatten)]⟩

/-- A raw file as `detect_header_row` sees it: unreadable, or a list of
CSV rows of text cells. -/
inductive FileRead where
  | err
  | ok (rows : List (List PyStr))
deriving DecidableEq

/-- One CSV row contains a cell equal to the marker after trimming,
case-insensitively (src/app.py:67). -/
def rowHasMarker (marker : PyStr) (row : List PyStr) : Bool :=
  row.any (fun cell => pyUpper (pyStrip cell) == pyUpper marker)

/-- Index of the first marker row among the first `fuel` rows. -/
def findHeader (marker : PyStr) : Nat → List (List PyStr) → Option Nat
  | _, [] => none
  | 0, _ => none
  | fuel+1, r :: rs =>
    if rowHasMarker marker r then some 0
    else (findHeader marker fuel rs).map (· + 1)

/-- Model of `detect_header_row` (src/app.py:60-71): scan at most `maxRows` rows
for the marker; on no match or an unreadable file, fall back to 0. -/
def detect_header_row (f : FileRead) (marker : PyStr) (maxRows : Nat) : Nat :=
  match f with
  | .err => 0
  | .ok rows => (findHeader marker maxRows rows).getD 0

deriving instance DecidableEq for Except

/-- The cells of a labelled column (`df[l]` as an `Option`). -/
def colVals (t : Table) (l : PyStr) : Option (List Cell) :=
  (t.cols.find? (·.1 == l)).map (·.2)

/-- The coerced measurement sub-field entering the derived `fd_medicao`
(src/app.py:125): the renamed table's column after numeric coercion,
with a missing column contributing 0 in every row. -/
def capexSubField (t : Table) (l : PyStr) : List PNum :=
  match colVals (renameWith CAPEX_COL_MAP (drop_junk_columns t)) l with
  | some v => (to_number v).map cellNum
  | none => List.replicate t.nrows (PNum.fin 0)

/-- The `i`-th row of a table: the `i`-th cell of every column. -/
def rowAt (t : Table) (i : Nat) : List (Option Cell) :=
  t.cols.map (fun c => c.2[i]?)

theorem dropWhile_all_neg {α} {p : α → Bool} :
    ∀ {l : List α}, (∀ c ∈ l, p c = false) → l.dropWhile p = l
  | [], _ => rfl
  | c :: cs, h => by
      simp [List.dropWhile_cons, h c (by simp)]

theorem pyStrip_all_not_ws {s : PyStr} (h : ∀ c ∈ s, wsChar c = false) :
    pyStrip s = s := by
  unfold pyStrip
  rw [dropWhile_all_neg h,
    dropWhile_all_neg (fun c hc => h c (List.mem_reverse.mp hc)),
    List.reverse_reverse]

theorem flatMap_id_of {α} {f : α → List α} :
    ∀ {l : List α}, (∀ c ∈ l, f c = [c]) → l.flatMap f = l := by
  intro l
  induction l with
  | nil => intro _; rfl
  | cons c cs ih =>
    intro h
    rw [List.flatMap_cons, h c (by simp), ih (fun x hx => h x (List.mem_cons_of_mem _ hx))]
    rfl

theorem map_id_of {α} {f : α → α} :
    ∀ {l : List α}, (∀ c ∈ l, f c = c) → l.map f = l := by
  intro l
  induction l with
  | nil => intro _; rfl
  | cons c cs ih =>
    intro h
    rw [List.map_cons, h c (by simp), ih (fun x hx => h x (List.mem_cons_of_mem _ hx))]

theorem lowerAlnum_not_ws {c : Nat} (h : isLowerAlnum c = true) :
    wsChar c = false := by
  simp only [isLowerAlnum, Bool.or_eq_true, decide_eq_true_eq] at h
  simp only [wsChar, Bool.or_eq_false_iff, decide_eq_false_iff_not]
  omega

theorem lowerAlnum_nfkd {c : Nat} (h : isLowerAlnum c = true) :
    nfkdChar c = [c] := by
  simp only [isLowerAlnum, Bool.or_eq_true, decide_eq_true_eq] at h
  unfold nfkdChar
  rw [if_pos]
  omega

theorem lowerAlnum_not_combining {c : Nat} (h : isLowerAlnum c = true) :
    isCombining c = false := by
  simp only [isLowerAlnum, Bool.or_eq_true, decide_eq_true_eq] at h
  simp only [isCombining, decide_eq_false_iff_not]
  omega

theorem lowerAlnum_lower_fixed {c : Nat} (h : isLowerAlnum c = true) :
    lowerChar c = c := by
  simp only [isLowerAlnum, Bool.or_eq_true, decide_eq_true_eq] at h
  unfold lowerChar
  rw [if_neg, if_neg] <;> omega

theorem mem_normalize_col {s : PyStr} {c : Nat} (h : c ∈ normalize_col s) :
    isLowerAlnum c = true :=
  (List.mem_filter.mp h).2

theorem normalize_col_fixed {s : PyStr} (h : ∀ c ∈ s, isLowerAlnum c = true) :
    normalize_col s = s := by
  have h1 : pyStrip s = s :=
    pyStrip_all_not_ws (fun c hc => lowerAlnum_not_ws (h c hc))
  have h2 : s.flatMap nfkdChar = s :=
    flatMap_id_of (fun c hc => lowerAlnum_nfkd (h c hc))
  have h3 : s.filter (fun c => !isCombining c) = s :=
    List.filter_eq_self.mpr (fun c hc => by
      simp [lowerAlnum_not_combining (h c hc)])
  have h4 : s.map lowerChar = s :=
    map_id_of (fun c hc => lowerAlnum_lower_fixed (h c hc))
  have h5 : s.filter isLowerAlnum = s := List.filter_eq_self.mpr h
  unfold normalize_col
  rw [h1, h2, h3, h4, h5]

/-- Claim C7: `normalize_col` is a pure function of its input (it is a
Lean function), it is idempotent, and the labels "Contrato Original",
"CONTRATO ORIGINAL" and "contrato_original " all map to one canonical
key, namely "contratooriginal". -/
theorem normalize_col_idempotent_and_synonyms :
    (∀ s : PyStr, normalize_col (normalize_col s) = normalize_col s)
  ∧ normalize_col (codes "Contrato Original") = codes "contratooriginal"
  ∧ normalize_col (codes "CONTRATO ORIGINAL") = codes "contratooriginal"
  ∧ normalize_col (codes "contrato_original ") = codes "contratooriginal" :=
  ⟨fun _ => normalize_col_fixed (fun _ hc => mem_normalize_col hc),
   by decide, by decide, by decide⟩

/-- Claim C1 counterexample: on the comma-free input "1234.56" the
coercion keeps the dot as a decimal separator and yields 1234.56, not
123456 as the claim states — dots are only stripped when a comma is
present. -/
theorem to_number_no_comma_counterexample :
    to_number [Cell.str (codes "1234.56")] ≠ [Cell.num (PNum.fin 123456)]
  ∧ to_number [Cell.str (codes "1234.56")] =
      [Cell.num (PNum.fin (mkFrac 123456 100))] := by
  refine ⟨by decide, by decide⟩

/-- Claim C1 (amended): `to_number` maps "1.234,56" to 1234.56, "1234,5"
to 1234.5, "" to 0, "abc" to 0, and "1234.56" (containing no comma) to
1234.56 — the thousands-separator dots are removed only when a decimal
comma is present. -/
theorem to_number_spec_examples :
    to_number [Cell.str (codes "1.234,56")] = [Cell.num (PNum.fin (mkFrac 123456 100))]
  ∧ to_number [Cell.str (codes "1234,5")] = [Cell.num (PNum.fin (mkFrac 12345 10))]
  ∧ to_number [Cell.str (codes "")] = [Cell.num (PNum.fin 0)]
  ∧ to_number [Cell.str (codes "abc")] = [Cell.num (PNum.fin 0)]
  ∧ to_number [Cell.str (codes "1234.56")] = [Cell.num (PNum.fin (mkFrac 123456 100))] := by
  refine ⟨by decide, by decide, by decide, by decide, by decide⟩

theorem pandasParse_not_inf {s0 : PyStr}
    (h : isInfWord (splitSign (pyStrip s0)).2 = false) :
    pandasParse s0 = none ∨ ∃ q, pandasParse s0 = some (.fin q) := by
  simp only [pandasParse, h, Bool.false_eq_true, if_false]
  rcases hm : parseMantissa (splitSign (pyStrip s0)).2 with _ | ⟨q, rest⟩
  · simp only [hm]
    exact Or.inl trivial
  · simp only [hm]
    rcases he : parseExponent rest with _ | ⟨e, rest2⟩
    · simp only [he]
      exact Or.inl trivial
    · simp only [he]
      by_cases hr : rest2 = []
      · exact Or.inr ⟨_, by rw [if_pos hr]⟩
      · exact Or.inl (by rw [if_neg hr])

theorem toNumberStr_ne_nan (s : PyStr) : toNumberStr s ≠ PNum.nan := by
  unfold toNumberStr
  rcases pandasParse (cleanNum s) with _ | v
  · exact fun h => PNum.noConfusion h
  · rcases v with q | _ | _ | _ <;> exact fun h => PNum.noConfusion h

/-- Claim C5 counterexample: the text "inf" reaches pandas' parser, which
recognizes it as an infinity, so the coerced output is infinite, not
finite as the claim states. -/
theorem to_number_infinite_counterexample :
    to_number [Cell.str (codes "inf")] = [Cell.num PNum.inf]
  ∧ PNum.inf ≠ PNum.fin 0 ∧ PNum.inf ≠ PNum.nan :=
  ⟨by decide, fun h => PNum.noConfusion h, fun h => PNum.noConfusion h⟩

theorem pandasParse_inf {s0 : PyStr}
    (h : isInfWord (splitSign (pyStrip s0)).2 = true) :
    pandasParse s0 =
      some (if (splitSign (pyStrip s0)).1 then PNum.neginf else PNum.inf) := by
  simp only [pandasParse]
  rw [if_pos h]

/-- Claim C5 (amended): `to_number` is a total function (no exception
escapes) and never produces NaN — every output cell is a number, and
parse failures and NaN are replaced by 0; every input whose text does
not spell an infinity (after the locale cleanup, the text minus an
optional sign is not a case-insensitive `inf`/`infinity`) is coerced to
a finite value, and every input that does spell one is coerced to the
corresponding infinity. -/
theorem to_number_no_nan_and_finiteness :
    (∀ col : List Cell, ∀ c ∈ to_number col, ∃ p, c = Cell.num p ∧ p ≠ PNum.nan)
  ∧ (∀ s : PyStr, spellsInf s = false → ∃ q, toNumberStr s = PNum.fin q)
  ∧ (∀ s : PyStr, spellsInf s = true →
       toNumberStr s = PNum.inf ∨ toNumberStr s = PNum.neginf) := by
  refine ⟨?_, ?_, ?_⟩
  · intro col c hc
    rcases List.mem_map.mp hc with ⟨x, _, hx⟩
    exact ⟨toNumberCell x, hx.symm, toNumberStr_ne_nan (cellToStr x)⟩
  · intro s h
    unfold spellsInf at h
    unfold toNumberStr
    rcases pandasParse_not_inf h with hp | ⟨q, hp⟩
    · rw [hp]
      exact ⟨0, rfl⟩
    · rw [hp]
      exact ⟨q, rfl⟩
  · intro s h
    unfold spellsInf at h
    unfold toNumberStr
    rw [pandasParse_inf h]
    by_cases hs : (splitSign (pyStrip (cleanNum s))).1 = true
    · rw [if_pos hs]
      right
      rfl
    · rw [if_neg hs]
      left
      rfl

/-- Witness for the amended C5: the concrete input "mi" contains the
letter i but does not spell an infinity, and is coerced to a finite
value. -/
theorem to_number_no_nan_and_finiteness_witness :
    ∃ q, toNumberStr (codes "mi") = PNum.fin q :=
  to_number_no_nan_and_finiteness.2.1 (codes "mi") (by decide)

theorem findHeader_none {marker : PyStr} :
    ∀ (fuel : Nat) (rows : List (List PyStr)),
      (∀ r ∈ rows.take fuel, rowHasMarker marker r = false) →
      findHeader marker fuel rows = none := by
  intro fuel rows
  induction rows generalizing fuel with
  | nil => intro _; cases fuel <;> rfl
  | cons r rs ih =>
    intro h
    cases fuel with
    | zero => rfl
    | succ f =>
      have hr : rowHasMarker marker r = false :=
        h r (by simp [List.take_succ_cons])
      simp only [findHeader, hr, Bool.false_eq_true, if_false]
      rw [ih f (fun x hx => h x (by simp [List.take_succ_cons, hx]))]
      rfl

theorem findHeader_found {marker : PyStr} :
    ∀ (i fuel : Nat) (rows : List (List PyStr)) (r : List PyStr),
      i < fuel → rows[i]? = some r → rowHasMarker marker r = true →
      (∀ j rj, j < i → rows[j]? = some rj → rowHasMarker marker rj = false) →
      findHeader marker fuel rows = some i := by
  intro i
  induction i with
  | zero =>
    intro fuel rows r hf hg hm _
    cases rows with
    | nil => simp at hg
    | cons a rs =>
      cases fuel with
      | zero => omega
      | succ f =>
        simp only [List.getElem?_cons_zero, Option.some.injEq] at hg
        rw [← hg] at hm
        simp [findHeader, hm]
  | succ i ih =>
    intro fuel rows r hf hg hm hprev
    cases rows with
    | nil => simp at hg
    | cons a rs =>
      cases fuel with
      | zero => omega
      | succ f =>
        have ha : rowHasMarker marker a = false := hprev 0 a (by omega) (by simp)
        simp only [findHeader, ha, Bool.false_eq_true, if_false]
        rw [ih f rs r (by omega) (by simpa using hg) hm
          (fun j rj hj hgj => hprev (j+1) rj (by omega) (by simpa using hgj))]
        rfl

/-- Claim C6: `detect_header_row` with the default bound returns the
zero-based index of the first row among the first 25 rows holding a cell
equal to the marker after trimming, case-insensitively; with no such row
in the bound, or with an unreadable file, it returns 0; and a file with
three blank/title rows followed by a header row containing "UFV" returns
3. -/
theorem detect_header_row_spec :
    (∀ (rows : List (List PyStr)) (marker : PyStr) (i : Nat) (r : List PyStr),
        i < 25 → rows[i]? = some r → rowHasMarker marker r = true →
        (∀ j rj, j < i → rows[j]? = some rj → rowHasMarker marker rj = false) →
        detect_header_row (.ok rows) marker 25 = i)
  ∧ (∀ (rows : List (List PyStr)) (marker : PyStr),
        (∀ r ∈ rows.take 25, rowHasMarker marker r = false) →
        detect_header_row (.ok rows) marker 25 = 0)
  ∧ (∀ marker : PyStr, detect_header_row .err marker 25 = 0)
  ∧ detect_header_row
      (.ok [[codes ""], [codes "Relatorio de obras"], [codes ""],
            [codes "UFV", codes "Valor Total"]]) (codes "UFV") 25 = 3 := by
  refine ⟨?_, ?_, fun _ => rfl, by decide⟩
  · intro rows marker i r hi hg hm hprev
    simp only [detect_header_row]
    rw [findHeader_found i 25 rows r hi hg hm hprev]
    rfl
  · intro rows marker h
    simp only [detect_header_row]
    rw [findHeader_none 25 rows h]
    rfl

/-- Witness for C6: the locator applied at a concrete file where the
marker row is row 1. -/
theorem detect_header_row_spec_witness :
    detect_header_row (.ok [[codes "titulo"], [codes " ufv ", codes "obra"]])
      (codes "UFV") 25 = 1 :=
  detect_header_row_spec.1 _ (codes "UFV") 1 [codes " ufv ", codes "obra"]
    (by omega) (by decide) (by decide)
    (fun j rj hj hgj => by
      have hj0 : j = 0 := by omega
      subst hj0
      simp only [List.getElem?_cons_zero, Option.some.injEq] at hgj
      rw [← hgj]
      decide)

theorem fst_updByLabel {β : Type} (P : PyStr → Bool) (g : β → β)
    (c : PyStr × β) : (updByLabel P g c).1 = c.1 := by
  unfold updByLabel
  by_cases h : P c.1 = true
  · rw [if_pos h]
  · rw [if_neg h]

theorem labels_map_updByLabel {β : Type} (P : PyStr → Bool) (g : β → β)
    (cols : List (PyStr × β)) :
    (cols.map (updByLabel P g)).map Prod.fst = cols.map Prod.fst := by
  rw [List.map_map]
  exact List.map_congr_left (fun c _ => fst_updByLabel P g c)

theorem find?_map_updByLabel {β : Type} {P : PyStr → Bool} {g : β → β}
    {l : PyStr} :
    ∀ {cols : List (PyStr × β)},
      (cols.map (updByLabel P g)).find? (·.1 == l) =
        (cols.find? (·.1 == l)).map (updByLabel P g) := by
  intro cols
  induction cols with
  | nil => rfl
  | cons c cs ih =>
    simp only [List.map_cons, List.find?_cons]
    by_cases hc : (c.1 == l) = true
    · simp [fst_updByLabel, hc]
    · simp [fst_updByLabel, hc, ih]

theorem found_label {β : Type} {cols : List (PyStr × β)} {l : PyStr}
    {c : PyStr × β} (h : cols.find? (·.1 == l) = some c) : c.1 = l := by
  have := List.find?_some h
  simpa using this

theorem colVals_some_label {t : Table} {l : PyStr} {v : List Cell}
    (h : colVals t l = some v) :
    ∃ c ∈ t.cols, c.1 = l ∧ c.2 = v := by
  unfold colVals at h
  rcases hf : t.cols.find? (·.1 == l) with _ | c
  · rw [hf] at h
    exact absurd h (by simp)
  · rw [hf] at h
    exact ⟨c, List.mem_of_find?_eq_some hf, found_label hf, by simpa using h⟩

theorem countLabel_zero {t : Table} {l : PyStr} (h : countLabel t l = 0) :
    ∀ c ∈ t.cols, (c.1 == l) = false := by
  intro c hc
  by_cases hb : (c.1 == l) = true
  · have hmem : c ∈ t.cols.filter (·.1 == l) := List.mem_filter.mpr ⟨hc, hb⟩
    unfold countLabel at h
    rw [List.length_eq_zero] at h
    rw [h] at hmem
    exact absurd hmem (by simp)
  · simpa using hb

theorem updateCol_ok_cols {t : Table} {l : PyStr} {f : List Cell → List Cell}
    {msg : String} {t2 : Table} (h : updateCol t l f msg = .ok t2) :
    t2.nrows = t.nrows ∧ t2.cols = t.cols.map (updByLabel (· == l) f) := by
  rcases hc : countLabel t l with _ | n
  · simp only [updateCol, hc] at h
    have ht : t2 = t := by
      cases h
      rfl
    subst ht
    refine ⟨rfl, ?_⟩
    rw [map_id_of (fun c hcc => ?_)]
    unfold updByLabel
    rw [if_neg (by simp [countLabel_zero hc c hcc])]
  · rcases n with _ | n
    · simp only [updateCol, hc] at h
      cases h
      exact ⟨rfl, rfl⟩
    · simp only [updateCol, hc] at h
      exact Except.noConfusion h

theorem coerceCols_ok_cols :
    ∀ (ls : List PyStr), ls.Nodup → ∀ {t t2 : Table},
      coerceCols ls t = .ok t2 →
      t2.nrows = t.nrows ∧
      t2.cols = t.cols.map (updByLabel (fun x => decide (x ∈ ls)) to_number) := by
  intro ls
  induction ls with
  | nil =>
    intro _ t t2 h
    simp only [coerceCols] at h
    cases h
    refine ⟨rfl, ?_⟩
    rw [map_id_of]
    intro c _
    unfold updByLabel
    rw [if_neg (by simp)]
  | cons l ls ih =>
    intro hnd t t2 h
    simp only [coerceCols] at h
    rcases hu : coerceCol t l with e | u
    · rw [hu] at h
      exact Except.noConfusion h
    · rw [hu] at h
      obtain ⟨hn1, hc1⟩ := updateCol_ok_cols hu
      obtain ⟨hn2, hc2⟩ := ih (List.Nodup.of_cons hnd) h
      have hlmem : l ∉ ls := (List.nodup_cons.mp hnd).1
      refine ⟨by rw [hn2, hn1], ?_⟩
      rw [hc2, hc1, List.map_map]
      apply List.map_congr_left
      intro c _
      by_cases hcl : (c.1 == l) = true
      · have hl : c.1 = l := by simpa using hcl
        simp [updByLabel, hl, hlmem]
      · have hne : c.1 ≠ l := by simpa using hcl
        by_cases hmem : c.1 ∈ ls
        · simp [updByLabel, hne, hmem]
        · simp [updByLabel, hne, hmem]

theorem standardize_capex_ok_parts {t t2 : Table}
    (h : standardize_capex t = .ok t2) :
    ∃ u2 : Table,
      coerceCols NUMERIC_CAPEX (renameWith CAPEX_COL_MAP (drop_junk_columns t)) = .ok u2
      ∧ upperStripCol (deriveFdMedicao u2) (codes "ufv") = .ok t2 := by
  unfold standardize_capex at h
  rcases hc : coerceCols NUMERIC_CAPEX (renameWith CAPEX_COL_MAP (drop_junk_columns t))
    with e | u2
  · rw [hc] at h
    exact Except.noConfusion h
  · rw [hc] at h
    exact ⟨u2, rfl, h⟩

theorem standardize_fin_ok_parts {t t2 : Table}
    (h : standardize_fin t = .ok t2) :
    ∃ u2 : Table,
      coerceCol (renameWith FIN_COL_MAP t) (codes "valor_nf") = .ok u2
      ∧ upperStripCol u2 (codes "ufv_pag") = .ok t2 := by
  unfold standardize_fin at h
  rcases hc : coerceCol (renameWith FIN_COL_MAP t) (codes "valor_nf") with e | u2
  · rw [hc] at h
    exact Except.noConfusion h
  · rw [hc] at h
    exact ⟨u2, rfl, h⟩

theorem capex_map_values_not_junk : ∀ p ∈ CAPEX_COL_MAP, isJunk p.2 = false := by
  decide

theorem renameCol_capex_not_junk {l : PyStr} (h : isJunk l = false) :
    isJunk (renameCol CAPEX_COL_MAP l) = false := by
  unfold renameCol
  rcases hf : lookupMap CAPEX_COL_MAP (normalize_col l) with _ | v
  · exact h
  · unfold lookupMap at hf
    rcases hg : CAPEX_COL_MAP.find? (fun p => p.1 == normalize_col l) with _ | p
    · rw [hg] at hf
      exact absurd hf (by simp)
    · rw [hg] at hf
      have hv : p.2 = v := by simpa using hf
      rw [← hv]
      exact capex_map_values_not_junk p (List.mem_of_find?_eq_some hg)

theorem standardize_capex_label_origin {t t2 : Table}
    (h : standardize_capex t = .ok t2) :
    ∀ c ∈ t2.cols,
      (∃ c0 ∈ (drop_junk_columns t).cols, c.1 = renameCol CAPEX_COL_MAP c0.1)
      ∨ c.1 = codes "fd_medicao" := by
  intro c hc
  obtain ⟨u2, hco, hup⟩ := standardize_capex_ok_parts h
  obtain ⟨_, hcols⟩ := updateCol_ok_cols hup
  rw [hcols] at hc
  rcases List.mem_map.mp hc with ⟨c0, hc0, hcc⟩
  rw [← hcc, fst_updByLabel]
  have hc0' : c0 ∈ u2.cols ∨ c0.1 = codes "fd_medicao" := by
    unfold deriveFdMedicao at hc0
    by_cases hfd : hasCol u2 (codes "fd_medicao") = true
    · rw [if_pos hfd] at hc0
      exact Or.inl hc0
    · rw [if_neg hfd] at hc0
      rcases List.mem_append.mp hc0 with h1 | h2
      · exact Or.inl h1
      · right
        have : c0 = (codes "fd_medicao",
            (List.zipWith PNum.add (dfGetNums u2 (codes "fd_medido"))
              (dfGetNums u2 (codes "medicao"))).map Cell.num) := by simpa using h2
        rw [this]
  rcases hc0' with hmem | hfd
  · obtain ⟨_, hcols2⟩ :=
      coerceCols_ok_cols NUMERIC_CAPEX (by decide) hco
    rw [hcols2] at hmem
    rcases List.mem_map.mp hmem with ⟨c1, hc1, hcc1⟩
    rw [← hcc1, fst_updByLabel]
    unfold renameWith at hc1
    rcases List.mem_map.mp hc1 with ⟨c2, hc2, hcc2⟩
    rw [← hcc2]
    exact Or.inl ⟨c2, hc2, rfl⟩
  · exact Or.inr hfd

/-- Claim C3 counterexample: `standardize_fin` performs no junk-column
filtering — the junk column "Unnamed: 7" passes through a disbursement
table untouched. -/
theorem standardize_fin_junk_counterexample :
    standardize_fin ⟨1, [(codes "Unnamed: 7", [Cell.str (codes "x")])]⟩ =
      .ok ⟨1, [(codes "Unnamed: 7", [Cell.str (codes "x")])]⟩
  ∧ isJunk (codes "Unnamed: 7") = true :=
  ⟨by decide, by decide⟩

/-- Claim C3 (amended): in the capital-expenditure family junk columns
are removed before renaming, so a standardized capex table contains no
column whose trimmed label is empty, starts case-insensitively with
"unnamed", or has no alphanumeric character; the disbursement family's
`standardize_fin`, however, applies no junk filter, and junk columns
pass through it under their original labels (they merely never match a
canonical key). -/
theorem standardize_capex_no_junk_columns :
    (∀ t t2 : Table, standardize_capex t = .ok t2 →
        ∀ c ∈ t2.cols, isJunk c.1 = false)
  ∧ standardize_fin ⟨1, [(codes "Unnamed: 7", [Cell.str (codes "n")]),
                         (codes "Valor da NF", [Cell.str (codes "5")])]⟩ =
      .ok ⟨1, [(codes "Unnamed: 7", [Cell.str (codes "n")]),
               (codes "valor_nf", [Cell.num (.fin 5)])]⟩ := by
  constructor
  · intro t t2 h c hc
    rcases standardize_capex_label_origin h c hc with ⟨c0, hc0, hlab⟩ | hlab
    · rw [hlab]
      exact renameCol_capex_not_junk (by simpa using (List.mem_filter.mp hc0).2)
    · rw [hlab]
      decide
  · decide

/-- Witness for the amended C3: a concrete capex table with a junk
column standardizes to a table none of whose labels are junk. -/
theorem standardize_capex_no_junk_columns_witness :
    ∀ c ∈ (⟨1, [(codes "ufv", [Cell.str (codes "A")]),
                 (codes "fd_medicao", [Cell.num (.fin 0)])]⟩ : Table).cols,
      isJunk c.1 = false :=
  standardize_capex_no_junk_columns.1
    ⟨1, [(codes "Unnamed: 3", [Cell.str (codes "z")]),
         (codes "UFV", [Cell.str (codes "a")])]⟩
    _ (by decide)

/-- Claim C4 counterexample: the raw labels "Portfolio" and "Portifolio"
both resolve to the canonical field "portfolio", and the standardized
table keeps BOTH columns under that name (duplicate labels) — it does
not contain exactly one such column with the later column's values. -/
theorem rename_collision_counterexample :
    standardize_capex ⟨1, [(codes "Portfolio", [Cell.str (codes "a")]),
                           (codes "Portifolio", [Cell.str (codes "b")])]⟩ =
      .ok ⟨1, [(codes "portfolio", [Cell.str (codes "a")]),
               (codes "portfolio", [Cell.str (codes "b")]),
               (codes "fd_medicao", [Cell.num (.fin 0)])]⟩
  ∧ countLabel ⟨1, [(codes "portfolio", [Cell.str (codes "a")]),
                    (codes "portfolio", [Cell.str (codes "b")]),
                    (codes "fd_medicao", [Cell.num (.fin 0)])]⟩
      (codes "portfolio") = 2 :=
  ⟨by decide, by decide⟩

/-- Claim C4 (amended): `df.rename` never merges or drops columns — the
renamed table has exactly as many columns, carrying the same values in
the same positions — so two raw labels resolving to the same canonical
field survive as duplicate columns under that canonical label, with no
silent winner.  On the concrete "Portfolio"/"Portifolio" collision the
renamed table carries the canonical label twice. -/
theorem rename_collision_keeps_columns :
    (∀ (m : List (PyStr × PyStr)) (t : Table),
        (renameWith m t).cols.length = t.cols.length
      ∧ ∀ k : Nat, ((renameWith m t).cols[k]?).map Prod.snd =
          (t.cols[k]?).map Prod.snd)
  ∧ countLabel (renameWith CAPEX_COL_MAP
      ⟨1, [(codes "Portfolio", [Cell.str (codes "a")]),
           (codes "Portifolio", [Cell.str (codes "b")])]⟩) (codes "portfolio") = 2 := by
  constructor
  · intro m t
    constructor
    · unfold renameWith
      exact List.length_map _ _
    · intro k
      unfold renameWith
      rw [List.getElem?_map, Option.map_map]
      rfl
  · decide

theorem colVals_updateCol_self {t : Table} {l : PyStr}
    {f : List Cell → List Cell} {msg : String} {t2 : Table}
    (h : updateCol t l f msg = .ok t2) :
    colVals t2 l = (colVals t l).map f := by
  unfold colVals
  rw [(updateCol_ok_cols h).2, find?_map_updByLabel]
  rcases hf : t.cols.find? (·.1 == l) with _ | c
  · rw [hf]
    rfl
  · rw [hf]
    have hl : c.1 = l := found_label hf
    simp [updByLabel, hl]

theorem colVals_updateCol_other {t : Table} {l l0 : PyStr}
    {f : List Cell → List Cell} {msg : String} {t2 : Table}
    (h : updateCol t l f msg = .ok t2) (hne : l0 ≠ l) :
    colVals t2 l0 = colVals t l0 := by
  unfold colVals
  rw [(updateCol_ok_cols h).2, find?_map_updByLabel]
  rcases hf : t.cols.find? (·.1 == l0) with _ | c
  · rw [hf]
    rfl
  · rw [hf]
    have hl : c.1 = l0 := found_label hf
    simp [updByLabel, hl, hne]

theorem dropWhile_eq_self_of_head? {α} {p : α → Bool} {l : List α}
    (h : ∀ x, l.head? = some x → p x = false) : l.dropWhile p = l := by
  cases l with
  | nil => rfl
  | cons a as =>
    rw [List.dropWhile_cons, h a rfl]
    simp

theorem head?_dropWhile {α} {p : α → Bool} :
    ∀ {l : List α} {x : α}, (l.dropWhile p).head? = some x → p x = false := by
  intro l
  induction l with
  | nil => intro x h; exact absurd h (by simp)
  | cons a as ih =>
    intro x h
    rw [List.dropWhile_cons] at h
    by_cases ha : p a = true
    · rw [if_pos ha] at h
      exact ih h
    · rw [if_neg ha] at h
      have : a = x := by simpa using h
      rw [← this]
      simpa using ha

theorem pyStrip_eq_self_of {l : PyStr}
    (h1 : ∀ x, l.head? = some x → wsChar x = false)
    (h2 : ∀ x, l.getLast? = some x → wsChar x = false) :
    pyStrip l = l := by
  unfold pyStrip
  rw [dropWhile_eq_self_of_head? h1]
  rw [dropWhile_eq_self_of_head? (fun x hx => h2 x (by rwa [List.head?_reverse] at hx))]
  exact List.reverse_reverse l

theorem getLast?_pyStrip {s : PyStr} {x : Nat}
    (h : (pyStrip s).getLast? = some x) : wsChar x = false := by
  unfold pyStrip at h
  rw [List.getLast?_reverse] at h
  exact head?_dropWhile h

theorem head?_pyStrip {s : PyStr} {x : Nat}
    (h : (pyStrip s).head? = some x) : wsChar x = false := by
  unfold pyStrip at h
  rw [List.head?_reverse] at h
  obtain ⟨pre, hpre⟩ :=
    (List.dropWhile_suffix wsChar :
      List.IsSuffix ((s.dropWhile wsChar).reverse.dropWhile wsChar)
        (s.dropWhile wsChar).reverse)
  have hne : (s.dropWhile wsChar).reverse.dropWhile wsChar ≠ [] := by
    intro hnil
    rw [hnil] at h
    exact Option.noConfusion h
  have hz : (s.dropWhile wsChar).reverse.getLast? = some x := by
    rw [← hpre, List.getLast?_append_of_ne_nil pre hne, h]
  rw [List.getLast?_reverse] at hz
  exact head?_dropWhile hz

theorem upperChar_ws (c : Nat) : wsChar (upperChar c) = wsChar c := by
  unfold upperChar
  split
  · next h =>
    have h1 : wsChar (c - 32) = false := by
      simp only [wsChar, Bool.or_eq_false_iff, decide_eq_false_iff_not]
      omega
    have h2 : wsChar c = false := by
      simp only [wsChar, Bool.or_eq_false_iff, decide_eq_false_iff_not]
      omega
    rw [h1, h2]
  · split
    · next h =>
      have h1 : wsChar (c - 32) = false := by
        simp only [wsChar, Bool.or_eq_false_iff, decide_eq_false_iff_not]
        omega
      have h2 : wsChar c = false := by
        simp only [wsChar, Bool.or_eq_false_iff, decide_eq_false_iff_not]
        omega
      rw [h1, h2]
    · rfl

theorem upperChar_val (c : Nat) :
    upperChar c = c ∨ (65 ≤ upperChar c ∧ upperChar c ≤ 90) ∨
      (192 ≤ upperChar c ∧ upperChar c ≤ 222) := by
  unfold upperChar
  split
  · next h =>
    right
    left
    omega
  · split
    · next h =>
      right
      right
      omega
    · left
      rfl

theorem upperChar_fixed {c : Nat} (h1 : ¬(97 ≤ c ∧ c ≤ 122))
    (h2 : ¬(224 ≤ c ∧ c ≤ 254 ∧ c ≠ 247)) : upperChar c = c := by
  unfold upperChar
  rw [if_neg h1, if_neg h2]

theorem upperChar_idem (c : Nat) : upperChar (upperChar c) = upperChar c := by
  rcases upperChar_val c with h | h | h
  · rw [h, h]
  · exact upperChar_fixed (by omega) (by omega)
  · exact upperChar_fixed (by omega) (by omega)

theorem dropWhile_map_upper (l : PyStr) :
    (l.map upperChar).dropWhile wsChar = (l.dropWhile wsChar).map upperChar := by
  induction l with
  | nil => rfl
  | cons c cs ih =>
    simp only [List.map_cons, List.dropWhile_cons, upperChar_ws]
    by_cases h : wsChar c = true
    · rw [if_pos h, if_pos h]
      exact ih
    · rw [if_neg h, if_neg h, List.map_cons]

theorem pyStrip_pyUpper (s : PyStr) : pyStrip (pyUpper s) = pyUpper (pyStrip s) := by
  unfold pyStrip pyUpper
  simp only [dropWhile_map_upper, ← List.map_reverse]

theorem pyUpper_idem (s : PyStr) : pyUpper (pyUpper s) = pyUpper s := by
  unfold pyUpper
  rw [List.map_map]
  exact List.map_congr_left (fun c _ => upperChar_idem c)

theorem pyStrip_idem (s : PyStr) : pyStrip (pyStrip s) = pyStrip s :=
  pyStrip_eq_self_of (fun _ hx => head?_pyStrip hx) (fun _ hx => getLast?_pyStrip hx)

theorem upperStripCol_result {t : Table} {l : PyStr} {t2 : Table}
    (h : upperStripCol t l = .ok t2) {v : List Cell}
    (hv : colVals t2 l = some v) :
    ∀ cell ∈ v, ∃ s, cell = Cell.str s ∧ pyStrip s = s ∧ pyUpper s = s := by
  have hself := colVals_updateCol_self h
  rw [hself] at hv
  rcases hw : colVals t l with _ | w
  · rw [hw] at hv
    exact absurd hv (by simp)
  · rw [hw] at hv
    have hv2 : v = w.map upperStripCell := by simpa using hv.symm
    intro cell hc
    rw [hv2] at hc
    rcases List.mem_map.mp hc with ⟨x, _, hx⟩
    refine ⟨pyUpper (pyStrip (cellToStr x)), hx.symm, ?_, pyUpper_idem _⟩
    rw [pyStrip_pyUpper, pyStrip_idem]

/-- Claim C10: wherever the project-identifier field is present in a
standardized table — `ufv` for the capital-expenditure family, `ufv_pag`
for the disbursement family — every value in it is a string fixed by
trimming and by upper-casing (no leading or trailing whitespace, fully
upper-cased). -/
theorem standardize_identifier_normalized :
    (∀ t t2 : Table, standardize_capex t = .ok t2 →
       ∀ v, colVals t2 (codes "ufv") = some v →
       ∀ cell ∈ v, ∃ s, cell = Cell.str s ∧ pyStrip s = s ∧ pyUpper s = s)
  ∧ (∀ t t2 : Table, standardize_fin t = .ok t2 →
       ∀ v, colVals t2 (codes "ufv_pag") = some v →
       ∀ cell ∈ v, ∃ s, cell = Cell.str s ∧ pyStrip s = s ∧ pyUpper s = s) := by
  constructor
  · intro t t2 h v hv
    obtain ⟨u2, _, hup⟩ := standardize_capex_ok_parts h
    exact upperStripCol_result hup hv
  · intro t t2 h v hv
    obtain ⟨u2, _, hup⟩ := standardize_fin_ok_parts h
    exact upperStripCol_result hup hv

/-- Witness for C10: a concrete capex table whose raw identifier
" sol a " standardizes to the trimmed upper-case "SOL A". -/
theorem standardize_identifier_normalized_witness :
    ∀ cell ∈ [Cell.str (codes "SOL A")],
      ∃ s, cell = Cell.str s ∧ pyStrip s = s ∧ pyUpper s = s :=
  standardize_identifier_normalized.1
    ⟨1, [(codes "UFV", [Cell.str (codes " sol a ")])]⟩
    ⟨1, [(codes "ufv", [Cell.str (codes "SOL A")]),
         (codes "fd_medicao", [Cell.num (.fin 0)])]⟩
    (by decide) [Cell.str (codes "SOL A")] (by decide)

theorem any_label_map_updByLabel {β : Type} (P : PyStr → Bool) (g : β → β)
    (cols : List (PyStr × β)) (l : PyStr) :
    (cols.map (updByLabel P g)).any (·.1 == l) = cols.any (·.1 == l) := by
  rw [List.any_map]
  have hfun : ((fun (x : PyStr × β) => x.1 == l) ∘ updByLabel P g) =
      (fun (c : PyStr × β) => c.1 == l) :=
    funext (fun c => by simp [Function.comp, fst_updByLabel])
  rw [hfun]

theorem hasCol_coerceCols {ls : List PyStr} {t t2 : Table} (hnd : ls.Nodup)
    (h : coerceCols ls t = .ok t2) (l : PyStr) : hasCol t2 l = hasCol t l := by
  unfold hasCol
  rw [(coerceCols_ok_cols ls hnd h).2]
  exact any_label_map_updByLabel _ _ _ _

theorem colVals_coerceCols_mem {ls : List PyStr} {t t2 : Table} (hnd : ls.Nodup)
    (h : coerceCols ls t = .ok t2) {l : PyStr} (hl : l ∈ ls) :
    colVals t2 l = (colVals t l).map to_number := by
  unfold colVals
  rw [(coerceCols_ok_cols ls hnd h).2, find?_map_updByLabel]
  rcases hf : t.cols.find? (·.1 == l) with _ | c
  · rw [hf]
    rfl
  · rw [hf]
    have hc : c.1 = l := found_label hf
    simp [updByLabel, hc, hl]

theorem find?_append_none {α} {p : α → Bool} {l1 l2 : List α}
    (h : l1.find? p = none) : (l1 ++ l2).find? p = l2.find? p := by
  induction l1 with
  | nil => rfl
  | cons a l ih =>
    by_cases ha : p a = true
    · rw [List.find?_cons_of_pos l ha] at h
      exact Option.noConfusion h
    · rw [List.find?_cons_of_neg l ha] at h
      rw [List.cons_append, List.find?_cons_of_neg _ ha]
      exact ih h

theorem find?_none_of_hasCol_false {t : Table} {l : PyStr}
    (h : hasCol t l = false) : t.cols.find? (·.1 == l) = none := by
  rw [List.find?_eq_none]
  intro x hx
  unfold hasCol at h
  rw [List.any_eq_false] at h
  exact h x hx

theorem colVals_none {t : Table} {l : PyStr} (h : hasCol t l = false) :
    colVals t l = none := by
  unfold colVals
  rw [find?_none_of_hasCol_false h]
  rfl

theorem zipWith_replicate_same {α β γ : Type} (f : α → β → γ) :
    ∀ (n : Nat) (a : α) (b : β),
      List.zipWith f (List.replicate n a) (List.replicate n b) =
        List.replicate n (f a b) := by
  intro n a b
  induction n with
  | zero => rfl
  | succ k ih => simp [List.replicate_succ, ih]

theorem deriveFd_has {u2 : Table} (h : hasCol u2 (codes "fd_medicao") = true) :
    deriveFdMedicao u2 = u2 := by
  unfold deriveFdMedicao
  rw [if_pos h]

theorem colVals_deriveFd_not_has {u2 : Table}
    (h : hasCol u2 (codes "fd_medicao") = false) :
    colVals (deriveFdMedicao u2) (codes "fd_medicao") =
      some ((List.zipWith PNum.add (dfGetNums u2 (codes "fd_medido"))
        (dfGetNums u2 (codes "medicao"))).map Cell.num) := by
  unfold deriveFdMedicao
  rw [if_neg (by simp [h])]
  unfold colVals
  rw [find?_append_none (find?_none_of_hasCol_false h)]
  rw [List.find?_cons_of_pos _ (by simp)]
  rfl

theorem dfGetNums_coerceCols_some {ls : List PyStr} {u u2 : Table}
    (hnd : ls.Nodup) (h : coerceCols ls u = .ok u2) {l : PyStr} (hl : l ∈ ls)
    {v : List Cell} (hv : colVals u l = some v) :
    dfGetNums u2 l = (to_number v).map cellNum := by
  obtain ⟨hn, hc⟩ := coerceCols_ok_cols ls hnd h
  unfold dfGetNums
  rw [hc, find?_map_updByLabel]
  unfold colVals at hv
  rcases hf : u.cols.find? (·.1 == l) with _ | c
  · rw [hf] at hv
    exact absurd hv (by simp)
  · rw [hf] at hv
    have hcv : c.2 = v := by simpa using hv
    rw [hf]
    have hcl : c.1 = l := found_label hf
    simp [updByLabel, hcl, hl, hcv]

theorem dfGetNums_coerceCols_none {ls : List PyStr} {u u2 : Table}
    (hnd : ls.Nodup) (h : coerceCols ls u = .ok u2) {l : PyStr}
    (hv : colVals u l = none) :
    dfGetNums u2 l = List.replicate u.nrows (PNum.fin 0) := by
  obtain ⟨hn, hc⟩ := coerceCols_ok_cols ls hnd h
  unfold dfGetNums
  rw [hc, find?_map_updByLabel, hn]
  unfold colVals at hv
  rcases hf : u.cols.find? (·.1 == l) with _ | c
  · rw [hf]
    rfl
  · rw [hf] at hv
    exact absurd hv (by simp)

/-- Claim C9: in a standardized capital-expenditure table the
measured-to-date field `fd_medicao` equals the directly supplied
column's coerced values whenever the (junk-filtered, renamed) source
table carries that column; otherwise it is the elementwise sum of the
coerced `fd_medido` and `medicao` sub-fields, a missing sub-field
contributing 0 — so with both sub-fields missing it is 0 in every
row. -/
theorem standardize_capex_fd_medicao :
    ∀ t t2 : Table, standardize_capex t = .ok t2 →
      (hasCol (renameWith CAPEX_COL_MAP (drop_junk_columns t))
          (codes "fd_medicao") = true →
        colVals t2 (codes "fd_medicao") =
          (colVals (renameWith CAPEX_COL_MAP (drop_junk_columns t))
            (codes "fd_medicao")).map to_number)
    ∧ (hasCol (renameWith CAPEX_COL_MAP (drop_junk_columns t))
          (codes "fd_medicao") = false →
        colVals t2 (codes "fd_medicao") =
          some ((List.zipWith PNum.add (capexSubField t (codes "fd_medido"))
            (capexSubField t (codes "medicao"))).map Cell.num))
    ∧ (hasCol (renameWith CAPEX_COL_MAP (drop_junk_columns t))
          (codes "fd_medicao") = false →
       hasCol (renameWith CAPEX_COL_MAP (drop_junk_columns t))
          (codes "fd_medido") = false →
       hasCol (renameWith CAPEX_COL_MAP (drop_junk_columns t))
          (codes "medicao") = false →
        colVals t2 (codes "fd_medicao") =
          some (List.replicate t.nrows (Cell.num (PNum.fin 0)))) := by
  intro t t2 h
  obtain ⟨u2, hco, hup⟩ := standardize_capex_ok_parts h
  have hnd : NUMERIC_CAPEX.Nodup := by decide
  have hfdufv : codes "fd_medicao" ≠ codes "ufv" := by decide
  have hhas := hasCol_coerceCols hnd hco (codes "fd_medicao")
  have hpart2 : hasCol (renameWith CAPEX_COL_MAP (drop_junk_columns t))
      (codes "fd_medicao") = false →
      colVals t2 (codes "fd_medicao") =
        some ((List.zipWith PNum.add (capexSubField t (codes "fd_medido"))
          (capexSubField t (codes "medicao"))).map Cell.num) := by
    intro hf
    have hf2 : hasCol u2 (codes "fd_medicao") = false := by rw [hhas, hf]
    rw [colVals_updateCol_other hup hfdufv, colVals_deriveFd_not_has hf2]
    have hm1 : dfGetNums u2 (codes "fd_medido") = capexSubField t (codes "fd_medido") := by
      unfold capexSubField
      rcases hv : colVals (renameWith CAPEX_COL_MAP (drop_junk_columns t))
          (codes "fd_medido") with _ | v
      · exact dfGetNums_coerceCols_none hnd hco hv
      · exact dfGetNums_coerceCols_some hnd hco (by decide) hv
    have hm2 : dfGetNums u2 (codes "medicao") = capexSubField t (codes "medicao") := by
      unfold capexSubField
      rcases hv : colVals (renameWith CAPEX_COL_MAP (drop_junk_columns t))
          (codes "medicao") with _ | v
      · exact dfGetNums_coerceCols_none hnd hco hv
      · exact dfGetNums_coerceCols_some hnd hco (by decide) hv
    rw [hm1, hm2]
  refine ⟨?_, hpart2, ?_⟩
  · intro hf
    have hf2 : hasCol u2 (codes "fd_medicao") = true := by rw [hhas, hf]
    rw [colVals_updateCol_other hup hfdufv, deriveFd_has hf2]
    exact colVals_coerceCols_mem hnd hco (by decide)
  · intro hf hm1 hm2
    rw [hpart2 hf]
    have hv1 : capexSubField t (codes "fd_medido") =
        List.replicate t.nrows (PNum.fin 0) := by
      unfold capexSubField
      rw [colVals_none hm1]
    have hv2 : capexSubField t (codes "medicao") =
        List.replicate t.nrows (PNum.fin 0) := by
      unfold capexSubField
      rw [colVals_none hm2]
    rw [hv1, hv2, zipWith_replicate_same]
    rw [show PNum.add (PNum.fin 0) (PNum.fin 0) = PNum.fin 0 from by decide]
    rw [List.map_replicate]

/-- Witness for C9: a concrete capex table supplying only the two
sub-fields (values 1 and 2) standardizes with a derived `fd_medicao`
of 3. -/
theorem standardize_capex_fd_medicao_witness :
    colVals ⟨1, [(codes "fd_medido", [Cell.num (.fin 1)]),
                 (codes "medicao", [Cell.num (.fin 2)]),
                 (codes "fd_medicao", [Cell.num (.fin 3)])]⟩
      (codes "fd_medicao") = some [Cell.num (.fin 3)] :=
  ((standardize_capex_fd_medicao
      ⟨1, [(codes "FD Medido", [Cell.str (codes "1")]),
           (codes "Medição", [Cell.str (codes "2")])]⟩
      ⟨1, [(codes "fd_medido", [Cell.num (.fin 1)]),
           (codes "medicao", [Cell.num (.fin 2)]),
           (codes "fd_medicao", [Cell.num (.fin 3)])]⟩
      (by decide)).2.1 (by decide)).trans (by decide)

theorem getElem?_flatten_blocks {α : Type} {n : Nat} :
    ∀ (bs : List (List α)), (∀ b ∈ bs, b.length = n) →
      ∀ (k r : Nat), r < n →
        bs.flatten[k * n + r]? = (bs[k]?).bind (fun b => b[r]?) := by
  intro bs
  induction bs with
  | nil =>
    intro _ k r _
    simp
  | cons b rest ih =>
    intro hall k r hr
    have hb : b.length = n := hall b (by simp)
    rw [List.flatten_cons]
    cases k with
    | zero =>
      rw [Nat.zero_mul, Nat.zero_add, List.getElem?_append,
        if_pos (show r < b.length by omega)]
      simp
    | succ k2 =>
      have hge : b.length ≤ (k2 + 1) * n + r := by
        rw [hb, Nat.succ_mul]
        omega
      rw [List.getElem?_append_right hge]
      have hidx : (k2 + 1) * n + r - b.length = k2 * n + r := by
        rw [hb, Nat.succ_mul]
        omega
      rw [hidx, ih (fun x hx => hall x (by simp [hx])) k2 r hr]
      simp

/-- Claim C8: `normalize_fluxo` treats as month columns exactly the
columns whose trimmed lower-cased label starts with "mes" or "mês"
(`monthCols`); an empty input stays empty; with no month columns the
result is the empty frame; otherwise there is one output row per
(input-row, month-column) pair — the output row at index
`k * nrows + r` carries the identifying values of input row `r`, the
`k`-th month column's label under "mes", and that column's coerced
`r`-th cell under "valor".  (The hypothesis that no identifying column
is itself labelled "valor" mirrors `pandas.melt`, which refuses a
`value_name` colliding with an existing column.)  The spec's concrete
cash-flow table reshapes as stated. -/
theorem normalize_fluxo_spec :
    (∀ t : Table, t.isEmptyT = true → (normalize_fluxo t).isEmptyT = true)
  ∧ (∀ t : Table, t.isEmptyT = false → monthCols t = [] →
       normalize_fluxo t = emptyTable)
  ∧ (∀ t : Table, t.isEmptyT = false → monthCols t ≠ [] →
       (normalize_fluxo t).nrows = t.nrows * (monthCols t).length)
  ∧ (∀ (t : Table) (k r : Nat) (mc : PyStr × List Cell), t.WFT →
       codes "valor" ∉ (baseCols t).map Prod.fst →
       (monthCols t)[k]? = some mc → r < t.nrows →
       rowAt (normalize_fluxo t) (k * t.nrows + r) =
         (baseCols t).map (fun b => b.2[r]?) ++
           [some (Cell.str mc.1),
            (mc.2[r]?).map (fun x => Cell.num (toNumberCell x))])
  ∧ normalize_fluxo ⟨1, [(codes "Project", [Cell.str (codes "X")]),
                         (codes "Mes1", [Cell.str (codes "100")]),
                         (codes "Mes2", [Cell.str (codes "200,50")])]⟩ =
      ⟨2, [(codes "Project", [Cell.str (codes "X"), Cell.str (codes "X")]),
           (codes "mes", [Cell.str (codes "Mes1"), Cell.str (codes "Mes2")]),
           (codes "valor", [Cell.num (.fin 100),
                            Cell.num (.fin (mkFrac 2005 10))])]⟩ := by
  refine ⟨?_, ?_, ?_, ?_, by decide⟩
  · intro t h
    unfold normalize_fluxo
    rw [if_pos h]
    exact h
  · intro t h hm
    unfold normalize_fluxo
    rw [if_neg (by simp [h]), if_pos (by simp [hm])]
  · intro t h hm
    unfold normalize_fluxo
    rw [if_neg (by simp [h]), if_neg (by simp [List.isEmpty_iff, hm])]
  · intro t k r mc hwf hval hk hr
    have hmemf : mc ∈ monthCols t := List.getElem?_mem hk
    have hmem : mc ∈ t.cols := List.mem_of_mem_filter hmemf
    have hne : t.isEmptyT = false := by
      unfold Table.isEmptyT
      have h2 : t.cols ≠ [] := by
        intro hc
        rw [hc] at hmem
        exact (List.not_mem_nil mc) hmem
      simp [List.isEmpty_iff, h2]
      omega
    have hmne : (monthCols t).isEmpty = false := by
      rcases hml : monthCols t with _ | ⟨a, b⟩
      · rw [hml] at hk
        exact absurd hk (by simp)
      · rfl
    unfold normalize_fluxo
    rw [if_neg (by simp [hne]), if_neg (by simp [hmne])]
    unfold rowAt
    rw [List.map_append, List.map_map]
    congr 1
    · apply List.map_congr_left
      intro b hb
      have hlen : ∀ x ∈ (monthCols t).map (fun _ => b.2), x.length = t.nrows := by
        intro x hx
        rcases List.mem_map.mp hx with ⟨_, _, hxx⟩
        rw [← hxx]
        exact hwf b (List.mem_of_mem_filter hb)
      show ((monthCols t).map (fun _ => b.2)).flatten[k * t.nrows + r]? = b.2[r]?
      rw [getElem?_flatten_blocks _ hlen k r hr, List.getElem?_map, hk]
      rfl
    · have hlen1 : ∀ x ∈ (monthCols t).map
          (fun mc2 => List.replicate t.nrows (Cell.str mc2.1)), x.length = t.nrows := by
        intro x hx
        rcases List.mem_map.mp hx with ⟨_, _, hxx⟩
        rw [← hxx]
        exact List.length_replicate _ _
      have hlen2 : ∀ x ∈ (monthCols t).map (fun mc2 => to_number mc2.2),
          x.length = t.nrows := by
        intro x hx
        rcases List.mem_map.mp hx with ⟨mc2, hmc2, hxx⟩
        rw [← hxx]
        unfold to_number
        rw [List.length_map]
        exact hwf mc2 (List.mem_of_mem_filter hmc2)
      simp only [List.map_cons, List.map_nil]
      rw [getElem?_flatten_blocks _ hlen1 k r hr,
        getElem?_flatten_blocks _ hlen2 k r hr,
        List.getElem?_map, List.getElem?_map, hk]
      simp only [Option.map_some', Option.some_bind]
      rw [List.getElem?_replicate, if_pos hr]
      unfold to_number
      rw [List.getElem?_map]

/-- Witness for C8: on the spec's example table, output row 1 (month
column `Mes2`, input row 0) is `(Project=X, mes=Mes2, valor=200.5)`. -/
theorem normalize_fluxo_spec_witness :
    rowAt (normalize_fluxo ⟨1, [(codes "Project", [Cell.str (codes "X")]),
                                (codes "Mes1", [Cell.str (codes "100")]),
                                (codes "Mes2", [Cell.str (codes "200,50")])]⟩) 1 =
      [some (Cell.str (codes "X")), some (Cell.str (codes "Mes2")),
       some (Cell.num (.fin (mkFrac 2005 10)))] :=
  ((normalize_fluxo_spec).2.2.2.1
    ⟨1, [(codes "Project", [Cell.str (codes "X")]),
         (codes "Mes1", [Cell.str (codes "100")]),
         (codes "Mes2", [Cell.str (codes "200,50")])]⟩ 1 0
    (codes "Mes2", [Cell.str (codes "200,50")])
    (by unfold Table.WFT; decide) (by decide) (by decide) (by decide)).trans
    (by decide)


